import Mathlib

/-!
Verification of the linear-regression demonstration cell in
`src/linear_regression.ipynb`.

The cell (the only code the claims concern) is:

  N = 100
  D = 1
  epsilon = 0.5
  X = np.ones((D+1, N))
  X[:-1,:] = np.random.rand(D, N)
  beta = np.array([2, 1])
  y = X.T.dot(beta) + epsilon * np.random.randn(N)

  reg = LinearRegression().fit(X.T, y)
  beta_hat = reg.coef_
  beta_hat[-1] = reg.intercept_
  beta_hat = np.array(beta_hat)

  residuals = y - X.T.dot(beta_hat)

Two layers are embedded.

Layer A (this section) is the exact-arithmetic mathematics of the cell over
`ℚ`, with the random draws supplied as oracle functions: the design matrix,
the response, the scikit-learn fit, the intercept overwrite producing
`beta_hat`, and the residuals.  scikit-learn's `LinearRegression.fit`
(`fit_intercept=True`, the default) is a third-party library; it is embedded
from its documented behaviour: it subtracts the column means from the data
and the mean from the response, solves least squares on the centred data
(scipy's `lstsq`, which returns the minimum-norm solution; the centred
constant column is identically zero and therefore receives coefficient `0`),
and sets `intercept_ = mean y - (column means) ⬝ coef_`.  The least-squares
step is realised by the normal equations on the centred feature block via
the adjugate-based inverse; this agrees with the minimum-norm solution
whenever that block has full column rank, and also when it is zero (the
single-sample case), the only situations any statement below depends on.

Layer B (further down) is a small-step heap model of the same cell as
executed: numpy arrays live in a store, numpy operations check dimensions,
`beta_hat = reg.coef_` aliases, `beta_hat[-1] = reg.intercept_` writes in
place, `beta_hat = np.array(beta_hat)` copies.
-/

open Matrix

namespace LinReg

/-- Lines 113-114 of the notebook source: `X = np.ones((D+1, N))` followed by
`X[:-1,:] = np.random.rand(D, N)`.  Row `i < D` holds the uniform draws
`r i j`; row `D` is the constant row of ones.  The oracle `r` stands for
`np.random.rand`. -/
def designMatrix (D N : ℕ) (r : ℕ → ℕ → ℚ) : Matrix (Fin (D + 1)) (Fin N) ℚ :=
  Matrix.of fun i j => if (i : ℕ) < D then r i j else 1

/-- Line 116: `y = X.T.dot(beta) + epsilon * np.random.randn(N)`.  The oracle
`z` stands for `np.random.randn`. -/
def response (D N : ℕ) (X : Matrix (Fin (D + 1)) (Fin N) ℚ) (β : Fin (D + 1) → ℚ)
    (ε : ℚ) (z : Fin N → ℚ) : Fin N → ℚ :=
  fun n => (Xᵀ *ᵥ β) n + ε * z n

/-- Exact inverse of a square rational matrix via the adjugate; the zero
matrix when the determinant vanishes (matching `0⁻¹ = 0` in `ℚ`). -/
def matInv {n : ℕ} (M : Matrix (Fin n) (Fin n) ℚ) : Matrix (Fin n) (Fin n) ℚ :=
  M.det⁻¹ • M.adjugate

/-- Column means, as computed by scikit-learn's preprocessing step. -/
def colMean (N K : ℕ) (M : Matrix (Fin N) (Fin K) ℚ) : Fin K → ℚ :=
  fun k => (∑ n, M n k) / (N : ℚ)

/-- Mean of a vector. -/
def meanV (N : ℕ) (y : Fin N → ℚ) : ℚ := (∑ n, y n) / (N : ℚ)

/-- The feature block of the samples × (D+1) matrix passed to `fit`: its
first `D` columns (the last column is the constant one). -/
def featBlock (N D : ℕ) (A : Matrix (Fin N) (Fin (D + 1)) ℚ) :
    Matrix (Fin N) (Fin D) ℚ :=
  Matrix.of fun n d => A n d.castSucc

/-- Column-centred matrix, as scikit-learn centres the data before solving. -/
def centerCols (N K : ℕ) (M : Matrix (Fin N) (Fin K) ℚ) :
    Matrix (Fin N) (Fin K) ℚ :=
  Matrix.of fun n k => M n k - colMean N K M k

/-- Mean-centred vector. -/
def centerVec (N : ℕ) (y : Fin N → ℚ) : Fin N → ℚ :=
  fun n => y n - meanV N y

/-- Normal-equations solution of the centred least-squares subproblem on the
feature block (the value scipy's `lstsq` returns there whenever the block has
full column rank, and also when the block is zero). -/
def lstsqCoef (N D : ℕ) (Fc : Matrix (Fin N) (Fin D) ℚ) (yc : Fin N → ℚ) :
    Fin D → ℚ :=
  matInv (Fcᵀ * Fc) *ᵥ (Fcᵀ *ᵥ yc)

/-- The centred feature block of the matrix passed to `fit`. -/
def Fc (N D : ℕ) (A : Matrix (Fin N) (Fin (D + 1)) ℚ) : Matrix (Fin N) (Fin D) ℚ :=
  centerCols N D (featBlock N D A)

/-- The feature coefficients produced by the centred least-squares solve
inside `fit`. -/
def uCoef (N D : ℕ) (A : Matrix (Fin N) (Fin (D + 1)) ℚ) (y : Fin N → ℚ) :
    Fin D → ℚ :=
  lstsqCoef N D (Fc N D A) (centerVec N y)

/-- Line 118, first output: `reg.coef_` as assigned by
`LinearRegression().fit(X.T, y)`.  The feature coefficients come from the
centred least-squares solve; the constant column, centred to zero, receives
the minimum-norm coefficient `0`. -/
def fitCoef (N D : ℕ) (A : Matrix (Fin N) (Fin (D + 1)) ℚ) (y : Fin N → ℚ) :
    Fin (D + 1) → ℚ :=
  Fin.snoc (uCoef N D A y) 0

/-- Line 118, second output: `reg.intercept_`, computed by scikit-learn as
`y_offset - X_offset.dot(coef_)`. -/
def fitIntercept (N D : ℕ) (A : Matrix (Fin N) (Fin (D + 1)) ℚ) (y : Fin N → ℚ) : ℚ :=
  meanV N y - ∑ k, colMean N (D + 1) A k * fitCoef N D A y k

/-- Lines 119-121: `beta_hat = reg.coef_; beta_hat[-1] = reg.intercept_`.
The estimated coefficient vector is the fitted coefficients with the last
entry overwritten by the intercept. -/
def betaHat (N D : ℕ) (A : Matrix (Fin N) (Fin (D + 1)) ℚ) (y : Fin N → ℚ) :
    Fin (D + 1) → ℚ :=
  Function.update (fitCoef N D A y) (Fin.last D) (fitIntercept N D A y)

/-- Line 123: `residuals = y - X.T.dot(beta_hat)` (here `A = X.T`). -/
def residuals (N D : ℕ) (A : Matrix (Fin N) (Fin (D + 1)) ℚ) (y : Fin N → ℚ) :
    Fin N → ℚ :=
  fun n => y n - (A *ᵥ betaHat N D A y) n

/-- The specification's closed-form normal-equations solution
`(XᵀX)⁻¹ Xᵗ y`, written from the spec's formula for comparison with the
code's fitter. -/
def specNormalSolution (N K : ℕ) (A : Matrix (Fin N) (Fin K) ℚ) (y : Fin N → ℚ) :
    Fin K → ℚ :=
  matInv (Aᵀ * A) *ᵥ (Aᵀ *ᵥ y)

/-!
## Layer B: the cell as executed

Numpy arrays live in a store and Python variables hold addresses, so the
model captures aliasing (`beta_hat = reg.coef_`), in-place element
assignment (`beta_hat[-1] = reg.intercept_`, line 120) and copying
(`beta_hat = np.array(beta_hat)`, line 121).  The numpy operations check
dimensions the way numpy does and report failures as `NpErr` values.
-/

/-- Failure modes of the numpy/scikit-learn operations the cell uses:
`dimMismatch` for incompatible shapes in array arithmetic, `valueError`
for invalid constructor arguments (numpy raises `ValueError`, e.g. on
negative dimensions), `indexError` for element assignment into an empty
array. -/
inductive NpErr where
  | dimMismatch : NpErr
  | valueError : NpErr
  | indexError : NpErr
deriving DecidableEq

/-- The store of live array objects: 2-D arrays and 1-D arrays, addressed
by allocation index.  Two Python variables may alias the same object. -/
structure Heap where
  mats : List (List (List ℚ))
  vecs : List (List ℚ)
deriving DecidableEq

def allocMat (m : List (List ℚ)) (h : Heap) : ℕ × Heap :=
  (h.mats.length, ⟨h.mats ++ [m], h.vecs⟩)

def allocVec (v : List ℚ) (h : Heap) : ℕ × Heap :=
  (h.vecs.length, ⟨h.mats, h.vecs ++ [v]⟩)

def readMat (a : ℕ) (h : Heap) : List (List ℚ) := h.mats.getD a []

def readVec (a : ℕ) (h : Heap) : List ℚ := h.vecs.getD a []

def writeMat (a : ℕ) (m : List (List ℚ)) (h : Heap) : Heap :=
  ⟨h.mats.set a m, h.vecs⟩

def writeVec (a : ℕ) (v : List ℚ) (h : Heap) : Heap :=
  ⟨h.mats, h.vecs.set a v⟩

/-- Value of `np.ones((rows, cols))`. -/
def onesL (rows cols : ℕ) : List (List ℚ) :=
  List.replicate rows (List.replicate cols 1)

/-- Value of `np.random.rand(d, n)`, with the draws supplied by the oracle
`r`. -/
def randL (d n : ℕ) (r : ℕ → ℕ → ℚ) : List (List ℚ) :=
  (List.range d).map fun i => (List.range n).map fun j => r i j

/-- Value of `np.random.randn(n)`, with the draws supplied by the oracle
`z`. -/
def randnL (n : ℕ) (z : ℕ → ℚ) : List ℚ :=
  (List.range n).map z

def dotList (a b : List ℚ) : ℚ := (List.zipWith (fun p q => p * q) a b).sum

/-- Value of `m.T` for a rectangular 2-D array stored as a list of rows. -/
def transposeL (m : List (List ℚ)) : List (List ℚ) :=
  (List.range (m.headD []).length).map fun j => m.map fun row => row.getD j 0

def smulL (c : ℚ) (v : List ℚ) : List ℚ := v.map fun q => c * q

/-- Matrix–vector product `m.dot(v)`; numpy raises on a length mismatch. -/
def matVecL (m : List (List ℚ)) (v : List ℚ) : Except NpErr (List ℚ) :=
  if ∀ row ∈ m, row.length = v.length then .ok (m.map fun row => dotList row v)
  else .error .dimMismatch

def addVL (a b : List ℚ) : Except NpErr (List ℚ) :=
  if a.length = b.length then .ok (List.zipWith (fun p q => p + q) a b)
  else .error .dimMismatch

def subVL (a b : List ℚ) : Except NpErr (List ℚ) :=
  if a.length = b.length then .ok (List.zipWith (fun p q => p - q) a b)
  else .error .dimMismatch

/-- Line 114, `X[:-1,:] = R`: replaces all rows but the last; numpy raises
unless the assigned block's shape matches the slice's shape. -/
def sliceAssignRows (X R : List (List ℚ)) : Except NpErr (List (List ℚ)) :=
  if R.length + 1 = X.length ∧ ∀ row ∈ R, row.length = (X.headD []).length then
    .ok (R ++ X.drop R.length)
  else .error .valueError

def toMat (m : List (List ℚ)) (N K : ℕ) : Matrix (Fin N) (Fin K) ℚ :=
  Matrix.of fun i j => (m.getD (i : ℕ) []).getD (j : ℕ) 0

def toVec (v : List ℚ) (N : ℕ) : Fin N → ℚ := fun i => v.getD (i : ℕ) 0

/-- Line 118, `LinearRegression().fit(A, y)`, embedded from scikit-learn's
documented behaviour (see the layer-A `fitCoef`/`fitIntercept`): returns
the pair `(coef_, intercept_)`.  Scikit-learn validates that `A` and `y`
have the same number of samples and that there is at least one sample and
one feature column. -/
def linRegFit (A : List (List ℚ)) (y : List ℚ) : Except NpErr (List ℚ × ℚ) :=
  if A.length = 0 then .error .valueError
  else if y.length ≠ A.length then .error .dimMismatch
  else
    match (A.headD []).length with
    | 0 => .error .valueError
    | D + 1 =>
      .ok (List.ofFn (fitCoef A.length D (toMat A A.length (D + 1)) (toVec y A.length)),
        fitIntercept A.length D (toMat A A.length (D + 1)) (toVec y A.length))

/-- Line 120, `beta_hat[-1] = reg.intercept_`: writes the last entry of the
vector object at address `a` in place; numpy raises `IndexError` on an
empty array. -/
def writeVecLast (a : ℕ) (q : ℚ) (h : Heap) : Except NpErr Heap :=
  if (readVec a h).length = 0 then .error .indexError
  else .ok (writeVec a ((readVec a h).set ((readVec a h).length - 1) q) h)

/-- Observables of one run of the cell: the final store, the addresses the
variables hold at the end (`X`, `y`, `reg.coef_`, `beta_hat`, `residuals`),
and the coefficient array and intercept the fit itself returned. -/
structure Trace where
  heap : Heap
  xA : ℕ
  yA : ℕ
  coefA : ℕ
  bhA : ℕ
  resA : ℕ
  fitCoefV : List ℚ
  fitIceptV : ℚ
deriving DecidableEq

/-- Lines 113-123 of the cell, executed over the store.  `N`, `D`, `ε` are
the parameters of lines 110-112, `β` the true coefficient list of line 115,
`r` and `z` the random oracles. -/
def runPipeline (N D : ℕ) (ε : ℚ) (r : ℕ → ℕ → ℚ) (z : ℕ → ℚ) (β : List ℚ) :
    Except NpErr Trace :=
  let h0 : Heap := ⟨[], []⟩
  let p1 := allocMat (onesL (D + 1) N) h0
  (sliceAssignRows (readMat p1.1 p1.2) (randL D N r)).bind fun X1 =>
    let h2 := writeMat p1.1 X1 p1.2
    let p3 := allocVec β h2
    (matVecL (transposeL (readMat p1.1 p3.2)) (readVec p3.1 p3.2)).bind fun y1 =>
      (addVL y1 (smulL ε (randnL N z))).bind fun y2 =>
        let p4 := allocVec y2 p3.2
        (linRegFit (transposeL (readMat p1.1 p4.2)) (readVec p4.1 p4.2)).bind fun cb =>
          let p5 := allocVec cb.1 p4.2
          (writeVecLast p5.1 cb.2 p5.2).bind fun h6 =>
            let p7 := allocVec (readVec p5.1 h6) h6
            (matVecL (transposeL (readMat p1.1 p7.2)) (readVec p7.1 p7.2)).bind
              fun fitted =>
                (subVL (readVec p4.1 p7.2) fitted).bind fun res =>
                  let p8 := allocVec res p7.2
                  .ok ⟨p8.2, p1.1, p4.1, p5.1, p7.1, p8.1, cb.1, cb.2⟩

/-- Sign check of `np.ones((rows, cols))`: numpy raises `ValueError` on a
negative dimension. -/
def npOnesZ (rows cols : ℤ) : Except NpErr (List (List ℚ)) :=
  if rows < 0 ∨ cols < 0 then .error .valueError
  else .ok (onesL rows.toNat cols.toNat)

/-- Sign check of `np.random.rand(d, n)`. -/
def npRandZ (d n : ℤ) (r : ℕ → ℕ → ℚ) : Except NpErr (List (List ℚ)) :=
  if d < 0 ∨ n < 0 then .error .valueError
  else .ok (randL d.toNat n.toNat r)

/-- Sign check of `np.random.randn(n)`. -/
def npRandnZ (n : ℤ) (z : ℕ → ℚ) : Except NpErr (List ℚ) :=
  if n < 0 then .error .valueError
  else .ok (randnL n.toNat z)

/-- Lines 113-116 as the synthetic-data generator of spec §4.1, with the
sample and feature counts taken as (possibly negative) integers so that the
spec's parameter bounds can be stated.  The code performs no input
validation of its own: the only failures are the underlying numpy
`ValueError`s on negative array dimensions (and a shape mismatch if the
supplied coefficient list does not have length D+1). -/
def generate (N D : ℤ) (ε : ℚ) (β : List ℚ) (r : ℕ → ℕ → ℚ) (z : ℕ → ℚ) :
    Except NpErr (List (List ℚ) × List ℚ) :=
  (npOnesZ (D + 1) N).bind fun X0 =>
    (npRandZ D N r).bind fun R =>
      (sliceAssignRows X0 R).bind fun X =>
        (npRandnZ N z).bind fun zs =>
          (matVecL (transposeL X) β).bind fun y1 =>
            (addVL y1 (smulL ε zs)).bind fun y =>
              .ok (X, y)

/-! Value-level descriptions of the arrays a successful run produces. -/

/-- Contents of `X` after lines 113-114. -/
def designL (D N : ℕ) (r : ℕ → ℕ → ℚ) : List (List ℚ) :=
  randL D N r ++ [List.replicate N 1]

/-- Contents of `X.T`. -/
def XtL (D N : ℕ) (r : ℕ → ℕ → ℚ) : List (List ℚ) :=
  transposeL (designL D N r)

/-- Contents of `y` after line 116. -/
def yVal (D N : ℕ) (r : ℕ → ℕ → ℚ) (z : ℕ → ℚ) (β : List ℚ) (ε : ℚ) : List ℚ :=
  List.zipWith (fun p q => p + q) ((XtL D N r).map fun row => dotList row β)
    (smulL ε (randnL N z))

/-- Contents of `reg.coef_` as assigned by the fit on line 118. -/
def coefVal (D N : ℕ) (r : ℕ → ℕ → ℚ) (z : ℕ → ℚ) (β : List ℚ) (ε : ℚ) : List ℚ :=
  List.ofFn (fitCoef N D (toMat (XtL D N r) N (D + 1)) (toVec (yVal D N r z β ε) N))

/-- The intercept assigned by the fit on line 118. -/
def iceptVal (D N : ℕ) (r : ℕ → ℕ → ℚ) (z : ℕ → ℚ) (β : List ℚ) (ε : ℚ) : ℚ :=
  fitIntercept N D (toMat (XtL D N r) N (D + 1)) (toVec (yVal D N r z β ε) N)

/-- Contents of `beta_hat` (and, through the alias, of `reg.coef_`'s array)
after line 120. -/
def bhVal (D N : ℕ) (r : ℕ → ℕ → ℚ) (z : ℕ → ℚ) (β : List ℚ) (ε : ℚ) : List ℚ :=
  (coefVal D N r z β ε).set D (iceptVal D N r z β ε)

/-- Contents of `residuals` after line 123. -/
def resVal (D N : ℕ) (r : ℕ → ℕ → ℚ) (z : ℕ → ℚ) (β : List ℚ) (ε : ℚ) : List ℚ :=
  List.zipWith (fun p q => p - q) (yVal D N r z β ε)
    ((XtL D N r).map fun row => dotList row (bhVal D N r z β ε))

/-- The observables of a successful run: one 2-D array (`X`, address 0) and
five 1-D arrays allocated in order (`beta`, `y`, the fit's coefficient
array — mutated in place by line 120 —, the copy made on line 121, and
`residuals`). -/
def finalTrace (D N : ℕ) (r : ℕ → ℕ → ℚ) (z : ℕ → ℚ) (β : List ℚ) (ε : ℚ) : Trace :=
  ⟨⟨[designL D N r],
    [β, yVal D N r z β ε, bhVal D N r z β ε, bhVal D N r z β ε, resVal D N r z β ε]⟩,
    0, 1, 2, 3, 4, coefVal D N r z β ε, iceptVal D N r z β ε⟩

/-! Concrete oracles used in witnesses: `rIdx i j = j` supplies distinct
feature values, `zZero` is zero noise. -/

def rIdx : ℕ → ℕ → ℚ := fun _ j => j

def zZero : ℕ → ℚ := fun _ => 0

/-- A run of the notebook's scenario with all feature draws equal to 1/2
(a degenerate design when N > 1, and the only possible kind of draw row
when N = 1 matters). -/
def rHalf : ℕ → ℕ → ℚ := fun _ _ => 1 / 2

/-! Helper lemmas about the adjugate-based inverse. -/

lemma matInv_mul {n : ℕ} (M : Matrix (Fin n) (Fin n) ℚ) (h : M.det ≠ 0) :
    matInv M * M = 1 := by
  unfold matInv
  rw [Matrix.smul_mul, Matrix.adjugate_mul, smul_smul, inv_mul_cancel₀ h, one_smul]

lemma mul_matInv {n : ℕ} (M : Matrix (Fin n) (Fin n) ℚ) (h : M.det ≠ 0) :
    M * matInv M = 1 := by
  unfold matInv
  rw [Matrix.mul_smul, Matrix.mul_adjugate, smul_smul, inv_mul_cancel₀ h, one_smul]

lemma matInv_mulVec_cancel {n : ℕ} (M : Matrix (Fin n) (Fin n) ℚ) (h : M.det ≠ 0)
    (v : Fin n → ℚ) : matInv M *ᵥ (M *ᵥ v) = v := by
  rw [Matrix.mulVec_mulVec, matInv_mul M h, Matrix.one_mulVec]

lemma mulVec_matInv_cancel {n : ℕ} (M : Matrix (Fin n) (Fin n) ℚ) (h : M.det ≠ 0)
    (v : Fin n → ℚ) : M *ᵥ (matInv M *ᵥ v) = v := by
  rw [Matrix.mulVec_mulVec, mul_matInv M h, Matrix.one_mulVec]

/-! Centring kills column sums. -/

lemma sum_centerCols (N K : ℕ) (M : Matrix (Fin N) (Fin K) ℚ) (hN : (N : ℚ) ≠ 0)
    (k : Fin K) : ∑ n, centerCols N K M n k = 0 := by
  simp only [centerCols, Matrix.of_apply, colMean]
  rw [Finset.sum_sub_distrib, Finset.sum_const, Finset.card_univ, Fintype.card_fin,
    nsmul_eq_mul]
  field_simp

lemma sum_centerVec (N : ℕ) (y : Fin N → ℚ) (hN : (N : ℚ) ≠ 0) :
    ∑ n, centerVec N y n = 0 := by
  simp only [centerVec, meanV]
  rw [Finset.sum_sub_distrib, Finset.sum_const, Finset.card_univ, Fintype.card_fin,
    nsmul_eq_mul]
  field_simp

/-! Unfolding `beta_hat` as the pair (feature slopes, intercept). -/

lemma betaHat_eq_snoc (N D : ℕ) (A : Matrix (Fin N) (Fin (D + 1)) ℚ) (y : Fin N → ℚ) :
    betaHat N D A y = Fin.snoc (uCoef N D A y) (fitIntercept N D A y) := by
  funext i
  refine Fin.lastCases ?_ ?_ i
  · simp [betaHat, Fin.snoc_last]
  · intro j
    have hne : j.castSucc ≠ Fin.last D := (Fin.castSucc_lt_last j).ne
    simp [betaHat, fitCoef, Function.update_noteq hne, Fin.snoc_castSucc]

lemma colMean_featBlock (N D : ℕ) (A : Matrix (Fin N) (Fin (D + 1)) ℚ) (d : Fin D) :
    colMean N (D + 1) A d.castSucc = colMean N D (featBlock N D A) d := by
  simp [colMean, featBlock]

lemma fitIntercept_eq (N D : ℕ) (A : Matrix (Fin N) (Fin (D + 1)) ℚ) (y : Fin N → ℚ) :
    fitIntercept N D A y =
      meanV N y - ∑ d, colMean N D (featBlock N D A) d * uCoef N D A y d := by
  unfold fitIntercept fitCoef
  rw [Fin.sum_univ_castSucc]
  simp [Fin.snoc_castSucc, Fin.snoc_last, colMean_featBlock]

/-! The residual of the fitted model, in centred terms. -/

lemma residual_apply (N D : ℕ) (A : Matrix (Fin N) (Fin (D + 1)) ℚ) (y : Fin N → ℚ)
    (hA : ∀ n, A n (Fin.last D) = 1) (n : Fin N) :
    y n - (A *ᵥ betaHat N D A y) n =
      centerVec N y n - (Fc N D A *ᵥ uCoef N D A y) n := by
  rw [betaHat_eq_snoc]
  have hmv : (A *ᵥ Fin.snoc (uCoef N D A y) (fitIntercept N D A y)) n =
      (∑ d, A n d.castSucc * uCoef N D A y d) + fitIntercept N D A y := by
    simp only [Matrix.mulVec, Matrix.dotProduct]
    rw [Fin.sum_univ_castSucc]
    simp [Fin.snoc_castSucc, Fin.snoc_last, hA n]
  have hFcu : (Fc N D A *ᵥ uCoef N D A y) n =
      (∑ d, A n d.castSucc * uCoef N D A y d) -
        ∑ d, colMean N D (featBlock N D A) d * uCoef N D A y d := by
    simp only [Fc, centerCols, featBlock, Matrix.of_apply, Matrix.mulVec,
      Matrix.dotProduct]
    rw [← Finset.sum_sub_distrib]
    exact Finset.sum_congr rfl fun d _ => by ring
  rw [hmv, hFcu, fitIntercept_eq]
  simp only [centerVec]
  ring

lemma sum_centered_residual (N D : ℕ) (A : Matrix (Fin N) (Fin (D + 1)) ℚ)
    (y : Fin N → ℚ) (hN : (N : ℚ) ≠ 0) :
    ∑ n, (centerVec N y n - (Fc N D A *ᵥ uCoef N D A y) n) = 0 := by
  rw [Finset.sum_sub_distrib, sum_centerVec N y hN]
  simp only [Matrix.mulVec, Matrix.dotProduct]
  rw [Finset.sum_comm]
  have h0 : ∀ d, ∑ n, Fc N D A n d * uCoef N D A y d = 0 := fun d => by
    rw [← Finset.sum_mul]
    have := sum_centerCols N D (featBlock N D A) hN d
    rw [show ∑ n, Fc N D A n d = ∑ n, centerCols N D (featBlock N D A) n d from rfl,
      this, zero_mul]
  rw [Finset.sum_congr rfl fun d _ => h0 d]
  simp

lemma sum_residual (N D : ℕ) (A : Matrix (Fin N) (Fin (D + 1)) ℚ) (y : Fin N → ℚ)
    (hA : ∀ n, A n (Fin.last D) = 1) (hN : (N : ℚ) ≠ 0) :
    ∑ n, (y n - (A *ᵥ betaHat N D A y) n) = 0 := by
  rw [Finset.sum_congr rfl fun n _ => residual_apply N D A y hA n]
  exact sum_centered_residual N D A y hN

/-! The normal equations for the fitted coefficients. -/

lemma featureEq (N D : ℕ) (A : Matrix (Fin N) (Fin (D + 1)) ℚ) (y : Fin N → ℚ)
    (hFc : ((Fc N D A)ᵀ * Fc N D A).det ≠ 0) (d : Fin D) :
    ∑ n, Fc N D A n d * (centerVec N y n - (Fc N D A *ᵥ uCoef N D A y) n) = 0 := by
  have h1 : (Fc N D A)ᵀ *ᵥ (centerVec N y - Fc N D A *ᵥ uCoef N D A y) = 0 := by
    rw [Matrix.mulVec_sub, Matrix.mulVec_mulVec]
    have hu : ((Fc N D A)ᵀ * Fc N D A) *ᵥ uCoef N D A y =
        (Fc N D A)ᵀ *ᵥ centerVec N y := by
      unfold uCoef lstsqCoef
      exact mulVec_matInv_cancel _ hFc _
    rw [hu, sub_self]
  have h2 := congrFun h1 d
  simpa [Matrix.mulVec, Matrix.dotProduct, Matrix.transpose_apply, Pi.sub_apply]
    using h2

lemma normalEquation (N D : ℕ) (A : Matrix (Fin N) (Fin (D + 1)) ℚ) (y : Fin N → ℚ)
    (hA : ∀ n, A n (Fin.last D) = 1) (hN : (N : ℚ) ≠ 0)
    (hFc : ((Fc N D A)ᵀ * Fc N D A).det ≠ 0) :
    Aᵀ *ᵥ (y - A *ᵥ betaHat N D A y) = 0 := by
  funext k
  simp only [Matrix.mulVec, Matrix.dotProduct, Matrix.transpose_apply, Pi.sub_apply,
    Pi.zero_apply]
  refine Fin.lastCases ?_ ?_ k
  · calc ∑ n, A n (Fin.last D) * (y n - (A *ᵥ betaHat N D A y) n)
        = ∑ n, (y n - (A *ᵥ betaHat N D A y) n) :=
          Finset.sum_congr rfl fun n _ => by rw [hA n, one_mul]
      _ = 0 := sum_residual N D A y hA hN
  · intro d
    have hsplitA : ∀ n, A n d.castSucc = Fc N D A n d + colMean N D (featBlock N D A) d := by
      intro n
      simp only [Fc, centerCols, Matrix.of_apply, featBlock]
      ring
    calc ∑ n, A n d.castSucc * (y n - (A *ᵥ betaHat N D A y) n)
        = ∑ n, (Fc N D A n d * (centerVec N y n - (Fc N D A *ᵥ uCoef N D A y) n) +
            colMean N D (featBlock N D A) d *
              (centerVec N y n - (Fc N D A *ᵥ uCoef N D A y) n)) := by
          refine Finset.sum_congr rfl fun n _ => ?_
          rw [residual_apply N D A y hA n, hsplitA n]
          ring
      _ = (∑ n, Fc N D A n d * (centerVec N y n - (Fc N D A *ᵥ uCoef N D A y) n)) +
            colMean N D (featBlock N D A) d *
              ∑ n, (centerVec N y n - (Fc N D A *ᵥ uCoef N D A y) n) := by
          rw [Finset.sum_add_distrib, Finset.mul_sum]
      _ = 0 := by
          rw [featureEq N D A y hFc d, sum_centered_residual N D A y hN, mul_zero,
            add_zero]

lemma gram_mulVec_betaHat (N D : ℕ) (A : Matrix (Fin N) (Fin (D + 1)) ℚ)
    (y : Fin N → ℚ) (hA : ∀ n, A n (Fin.last D) = 1) (hN : (N : ℚ) ≠ 0)
    (hFc : ((Fc N D A)ᵀ * Fc N D A).det ≠ 0) :
    (Aᵀ * A) *ᵥ betaHat N D A y = Aᵀ *ᵥ y := by
  have h := normalEquation N D A y hA hN hFc
  rw [Matrix.mulVec_sub, Matrix.mulVec_mulVec, sub_eq_zero] at h
  exact h.symm

/-! Full column rank of the design gives full column rank of the centred
feature block, and at least one sample. -/

lemma cast_ne_zero_of_gram (N D : ℕ) (A : Matrix (Fin N) (Fin (D + 1)) ℚ)
    (hG : (Aᵀ * A).det ≠ 0) : (N : ℚ) ≠ 0 := by
  intro h
  have hN0 : N = 0 := by exact_mod_cast h
  subst hN0
  apply hG
  have hz : Aᵀ * A = 0 := by
    ext i j
    simp [Matrix.mul_apply]
  rw [hz, Matrix.det_zero ⟨Fin.last D⟩]

lemma fcGram_det_ne_zero (N D : ℕ) (A : Matrix (Fin N) (Fin (D + 1)) ℚ)
    (hA : ∀ n, A n (Fin.last D) = 1) (hG : (Aᵀ * A).det ≠ 0) :
    ((Fc N D A)ᵀ * Fc N D A).det ≠ 0 := by
  intro h0
  obtain ⟨c, hc0, hGc⟩ := Matrix.exists_mulVec_eq_zero_iff.mpr h0
  have hFcc : Fc N D A *ᵥ c = 0 := by
    have h1 : (Fc N D A *ᵥ c) ⬝ᵥ (Fc N D A *ᵥ c) = 0 := by
      have h2 := congrArg (fun w => Matrix.dotProduct c w) hGc
      simpa [← Matrix.mulVec_mulVec, Matrix.dotProduct_mulVec,
        Matrix.vecMul_transpose] using h2
    exact Matrix.dotProduct_self_eq_zero.mp h1
  set m : Fin D → ℚ := colMean N D (featBlock N D A) with hm
  set v : Fin (D + 1) → ℚ := Fin.snoc c (-(m ⬝ᵥ c)) with hv
  have hv0 : v ≠ 0 := by
    obtain ⟨d, hd⟩ := Function.ne_iff.mp hc0
    intro hvz
    apply hd
    have := congrFun hvz d.castSucc
    simpa [hv, Fin.snoc_castSucc] using this
  have hAv : A *ᵥ v = 0 := by
    funext n
    have hent : ∀ d : Fin D, A n d.castSucc = Fc N D A n d + m d := by
      intro d
      simp only [Fc, centerCols, Matrix.of_apply, featBlock, hm]
      ring
    have hFcn := congrFun hFcc n
    simp only [Matrix.mulVec, Matrix.dotProduct, Pi.zero_apply] at hFcn ⊢
    rw [Fin.sum_univ_castSucc]
    simp only [hv, Fin.snoc_castSucc, Fin.snoc_last, hA n]
    have hrw : (∑ d, A n d.castSucc * c d) =
        ∑ d, (Fc N D A n d * c d + m d * c d) :=
      Finset.sum_congr rfl fun d _ => by rw [hent d]; ring
    calc (∑ d, A n d.castSucc * c d) + 1 * -(m ⬝ᵥ c)
        = (∑ d, (Fc N D A n d * c d + m d * c d)) - m ⬝ᵥ c := by
          rw [hrw]; ring
      _ = ((∑ d, Fc N D A n d * c d) + ∑ d, m d * c d) - m ⬝ᵥ c := by
          rw [Finset.sum_add_distrib]
      _ = 0 := by
          rw [hFcn, zero_add]
          simp [Matrix.dotProduct]
  have : (Aᵀ * A).det = 0 := by
    refine Matrix.exists_mulVec_eq_zero_iff.mp ⟨v, hv0, ?_⟩
    rw [← Matrix.mulVec_mulVec, hAv, Matrix.mulVec_zero]
  exact hG this

/-! The fitted coefficients coincide with the normal-equations solution. -/

lemma betaHat_eq_specNormalSolution (N D : ℕ) (A : Matrix (Fin N) (Fin (D + 1)) ℚ)
    (y : Fin N → ℚ) (hA : ∀ n, A n (Fin.last D) = 1) (hG : (Aᵀ * A).det ≠ 0) :
    betaHat N D A y = specNormalSolution N (D + 1) A y := by
  have hN := cast_ne_zero_of_gram N D A hG
  have hFc := fcGram_det_ne_zero N D A hA hG
  have hNE := gram_mulVec_betaHat N D A y hA hN hFc
  unfold specNormalSolution
  rw [← hNE, matInv_mulVec_cancel _ hG]

lemma design_last_col (D N : ℕ) (r : ℕ → ℕ → ℚ) :
    ∀ n, (designMatrix D N r)ᵀ n (Fin.last D) = 1 := by
  intro n
  simp [designMatrix, Matrix.transpose_apply]


/-- C1: for every design matrix of shape samples × (D+1) that includes the
constant column and has `XᵀX` invertible, the estimated coefficient vector
`beta_hat` produced by the fitter equals the normal-equations solution
`(XᵀX)⁻¹ Xᵀ y`. -/
theorem fitter_matches_normal_equations (D N : ℕ) (r : ℕ → ℕ → ℚ) (y : Fin N → ℚ)
    (hG : (designMatrix D N r * (designMatrix D N r)ᵀ).det ≠ 0) :
    betaHat N D (designMatrix D N r)ᵀ y =
      specNormalSolution N (D + 1) (designMatrix D N r)ᵀ y := by
  apply betaHat_eq_specNormalSolution
  · exact design_last_col D N r
  · rw [Matrix.transpose_transpose]
    exact hG

/-- Witness for C1 at D = 1, N = 2, features 0 and 1, responses 1 and 3. -/
theorem fitter_matches_normal_equations_witness :
    (designMatrix 1 2 rIdx * (designMatrix 1 2 rIdx)ᵀ).det ≠ 0 ∧
      betaHat 2 1 (designMatrix 1 2 rIdx)ᵀ ![1, 3] =
        specNormalSolution 2 2 (designMatrix 1 2 rIdx)ᵀ ![1, 3] :=
  ⟨by
    rw [Matrix.det_fin_two (designMatrix 1 2 rIdx * (designMatrix 1 2 rIdx)ᵀ)]
    norm_num [Matrix.mul_apply, Matrix.transpose_apply, Fin.sum_univ_two, designMatrix,
      rIdx],
    fitter_matches_normal_equations 1 2 rIdx ![1, 3] (by
      rw [Matrix.det_fin_two (designMatrix 1 2 rIdx * (designMatrix 1 2 rIdx)ᵀ)]
      norm_num [Matrix.mul_apply, Matrix.transpose_apply, Fin.sum_univ_two,
        designMatrix, rIdx])⟩

/-- C2: with noise scale 0 and a full-column-rank design with N > D+1
samples, the fitted coefficient vector exactly equals the true coefficient
vector used to generate the responses. -/
theorem no_noise_round_trip (D N : ℕ) (r : ℕ → ℕ → ℚ) (β : Fin (D + 1) → ℚ)
    (z : Fin N → ℚ) (_hND : D + 1 < N)
    (hG : (designMatrix D N r * (designMatrix D N r)ᵀ).det ≠ 0) :
    betaHat N D (designMatrix D N r)ᵀ
      (response D N (designMatrix D N r) β 0 z) = β := by
  have hy : response D N (designMatrix D N r) β 0 z = (designMatrix D N r)ᵀ *ᵥ β := by
    funext n
    simp [response]
  rw [hy, betaHat_eq_specNormalSolution N D _ _ (design_last_col D N r)
    (by rw [Matrix.transpose_transpose]; exact hG)]
  unfold specNormalSolution
  rw [Matrix.transpose_transpose]
  have hmm : designMatrix D N r *ᵥ ((designMatrix D N r)ᵀ *ᵥ β) =
      (designMatrix D N r * (designMatrix D N r)ᵀ) *ᵥ β :=
    Matrix.mulVec_mulVec β _ _
  rw [hmm]
  exact matInv_mulVec_cancel _ hG β

/-- Witness for C2 at D = 1, N = 3, features 0, 1, 2, true coefficients
slope 2 and intercept 1. -/
theorem no_noise_round_trip_witness :
    (1 + 1 < 3 ∧ (designMatrix 1 3 rIdx * (designMatrix 1 3 rIdx)ᵀ).det ≠ 0) ∧
      betaHat 3 1 (designMatrix 1 3 rIdx)ᵀ
        (response 1 3 (designMatrix 1 3 rIdx) ![2, 1] 0 (fun n => zZero n)) = ![2, 1] :=
  ⟨⟨by norm_num, by
      rw [Matrix.det_fin_two (designMatrix 1 3 rIdx * (designMatrix 1 3 rIdx)ᵀ)]
      norm_num [Matrix.mul_apply, Matrix.transpose_apply, Fin.sum_univ_three,
        designMatrix, rIdx]⟩,
    no_noise_round_trip 1 3 rIdx ![2, 1] (fun n => zZero n) (by norm_num) (by
      rw [Matrix.det_fin_two (designMatrix 1 3 rIdx * (designMatrix 1 3 rIdx)ᵀ)]
      norm_num [Matrix.mul_apply, Matrix.transpose_apply, Fin.sum_univ_three,
        designMatrix, rIdx])⟩

/-- C6: for every fit on a design matrix that includes the constant
intercept row, the residual vector sums to zero (exactly, in exact
arithmetic). -/
theorem residuals_sum_to_zero (D N : ℕ) (r : ℕ → ℕ → ℚ) (y : Fin N → ℚ) :
    ∑ n, residuals N D (designMatrix D N r)ᵀ y n = 0 := by
  unfold residuals
  by_cases hN : (N : ℚ) = 0
  · have h0 : N = 0 := by exact_mod_cast hN
    subst h0
    simp
  · exact sum_residual N D _ y (design_last_col D N r) hN

/-- C7: with N = D+1 samples and a full-rank design matrix, the fit
interpolates exactly: the residual vector is the zero vector. -/
theorem exact_interpolation (D : ℕ) (r : ℕ → ℕ → ℚ) (y : Fin (D + 1) → ℚ)
    (hdet : (designMatrix D (D + 1) r).det ≠ 0) :
    residuals (D + 1) D (designMatrix D (D + 1) r)ᵀ y = 0 := by
  set A := (designMatrix D (D + 1) r)ᵀ with hA
  have hAt : Aᵀ.det ≠ 0 := by
    rw [hA, Matrix.transpose_transpose]
    exact hdet
  have hAdet : A.det ≠ 0 := by
    rw [hA, Matrix.det_transpose]
    exact hdet
  have hG : (Aᵀ * A).det ≠ 0 := by
    rw [Matrix.det_mul]
    exact mul_ne_zero hAt hAdet
  have hlast : ∀ n, A n (Fin.last D) = 1 := design_last_col D (D + 1) r
  have hN := cast_ne_zero_of_gram (D + 1) D A hG
  have hFc := fcGram_det_ne_zero (D + 1) D A hlast hG
  have hNE := normalEquation (D + 1) D A y hlast hN hFc
  have hres : y - A *ᵥ betaHat (D + 1) D A y = 0 := by
    have h2 := congrArg (fun w => matInv Aᵀ *ᵥ w) hNE
    simpa [matInv_mulVec_cancel Aᵀ hAt, Matrix.mulVec_zero] using h2
  funext n
  have h3 := congrFun hres n
  simpa [residuals, Pi.sub_apply] using h3

/-- Witness for C7 at D = 1, N = 2, features 0 and 1, responses 1 and 3. -/
theorem exact_interpolation_witness :
    (designMatrix 1 2 rIdx).det ≠ 0 ∧
      residuals 2 1 (designMatrix 1 2 rIdx)ᵀ ![1, 3] = 0 :=
  ⟨by
    rw [Matrix.det_fin_two (designMatrix 1 2 rIdx)]
    norm_num [designMatrix, rIdx],
    exact_interpolation 1 rIdx ![1, 3] (by
      rw [Matrix.det_fin_two (designMatrix 1 2 rIdx)]
      norm_num [designMatrix, rIdx])⟩

/-! Shape facts. -/

lemma randL_length (D N : ℕ) (r : ℕ → ℕ → ℚ) : (randL D N r).length = D := by
  simp [randL]

lemma randL_row_length (D N : ℕ) (r : ℕ → ℕ → ℚ) :
    ∀ row ∈ randL D N r, row.length = N := by
  intro row hrow
  simp only [randL, List.mem_map] at hrow
  obtain ⟨i, _, rfl⟩ := hrow
  simp

lemma onesL_length (R C : ℕ) : (onesL R C).length = R := by
  simp [onesL]

lemma onesL_headD (R C : ℕ) : (onesL (R + 1) C).headD [] = List.replicate C 1 := by
  simp [onesL, List.replicate_succ]

lemma sliceAssign_design (D N : ℕ) (r : ℕ → ℕ → ℚ) :
    sliceAssignRows (onesL (D + 1) N) (randL D N r) = .ok (designL D N r) := by
  unfold sliceAssignRows
  rw [if_pos]
  · unfold designL
    rw [randL_length]
    congr 1
    simp [onesL, List.drop_replicate]
  · refine ⟨by rw [randL_length, onesL_length], ?_⟩
    intro row hrow
    rw [onesL_headD, List.length_replicate]
    exact randL_row_length D N r row hrow

lemma designL_length (D N : ℕ) (r : ℕ → ℕ → ℚ) : (designL D N r).length = D + 1 := by
  simp [designL, randL_length]

lemma designL_row_length (D N : ℕ) (r : ℕ → ℕ → ℚ) :
    ∀ row ∈ designL D N r, row.length = N := by
  intro row hrow
  rcases List.mem_append.mp hrow with h | h
  · exact randL_row_length D N r row h
  · simp only [List.mem_singleton] at h
    subst h
    simp

lemma headD_length_of_all {l : List (List ℚ)} {c : ℕ} (hne : l ≠ [])
    (hall : ∀ row ∈ l, row.length = c) : (l.headD []).length = c := by
  obtain ⟨a, t, rfl⟩ := List.exists_cons_of_ne_nil hne
  rw [List.headD_cons]
  exact hall a (List.mem_cons_self a t)

lemma designL_ne_nil (D N : ℕ) (r : ℕ → ℕ → ℚ) : designL D N r ≠ [] := by
  simp [designL]

lemma designL_headD_length (D N : ℕ) (r : ℕ → ℕ → ℚ) :
    ((designL D N r).headD []).length = N :=
  headD_length_of_all (designL_ne_nil D N r) (designL_row_length D N r)

lemma transposeL_length (m : List (List ℚ)) :
    (transposeL m).length = (m.headD []).length := by
  simp [transposeL]

lemma transposeL_row_length (m : List (List ℚ)) :
    ∀ row ∈ transposeL m, row.length = m.length := by
  intro row hrow
  simp only [transposeL, List.mem_map] at hrow
  obtain ⟨j, _, rfl⟩ := hrow
  simp

lemma XtL_length (D N : ℕ) (r : ℕ → ℕ → ℚ) : (XtL D N r).length = N := by
  rw [XtL, transposeL_length, designL_headD_length]

lemma XtL_row_length (D N : ℕ) (r : ℕ → ℕ → ℚ) :
    ∀ row ∈ XtL D N r, row.length = D + 1 := by
  intro row hrow
  rw [XtL] at hrow
  have h := transposeL_row_length _ row hrow
  rwa [designL_length] at h

lemma XtL_ne_nil (D N : ℕ) (r : ℕ → ℕ → ℚ) (hN : 1 ≤ N) : XtL D N r ≠ [] := by
  intro h
  have hlen := XtL_length D N r
  rw [h] at hlen
  simp at hlen
  omega

lemma XtL_headD_length (D N : ℕ) (r : ℕ → ℕ → ℚ) (hN : 1 ≤ N) :
    ((XtL D N r).headD []).length = D + 1 :=
  headD_length_of_all (XtL_ne_nil D N r hN) (XtL_row_length D N r)

lemma yVal_length (D N : ℕ) (r : ℕ → ℕ → ℚ) (z : ℕ → ℚ) (β : List ℚ) (ε : ℚ) :
    (yVal D N r z β ε).length = N := by
  simp [yVal, smulL, randnL, XtL_length]

lemma coefVal_length (D N : ℕ) (r : ℕ → ℕ → ℚ) (z : ℕ → ℚ) (β : List ℚ) (ε : ℚ) :
    (coefVal D N r z β ε).length = D + 1 := by
  simp [coefVal]

lemma bhVal_length (D N : ℕ) (r : ℕ → ℕ → ℚ) (z : ℕ → ℚ) (β : List ℚ) (ε : ℚ) :
    (bhVal D N r z β ε).length = D + 1 := by
  simp [bhVal, coefVal_length]

lemma resVal_length (D N : ℕ) (r : ℕ → ℕ → ℚ) (z : ℕ → ℚ) (β : List ℚ) (ε : ℚ) :
    (resVal D N r z β ε).length = N := by
  simp [resVal, yVal_length, XtL_length]

/-! Success lemmas for the checked operations. -/

lemma matVecL_ok (m : List (List ℚ)) (v : List ℚ)
    (hall : ∀ row ∈ m, row.length = v.length) :
    matVecL m v = .ok (m.map fun row => dotList row v) := by
  unfold matVecL
  exact if_pos hall

lemma addVL_ok (a b : List ℚ) (h : a.length = b.length) :
    addVL a b = .ok (List.zipWith (fun p q => p + q) a b) := by
  unfold addVL
  exact if_pos h

lemma subVL_ok (a b : List ℚ) (h : a.length = b.length) :
    subVL a b = .ok (List.zipWith (fun p q => p - q) a b) := by
  unfold subVL
  exact if_pos h

lemma linRegFit_eq (A : List (List ℚ)) (y : List ℚ) (N D : ℕ) (hA : A.length = N)
    (hN : N ≠ 0) (hy : y.length = N) (hhead : (A.headD []).length = D + 1) :
    linRegFit A y = .ok
      (List.ofFn (fitCoef N D (toMat A N (D + 1)) (toVec y N)),
        fitIntercept N D (toMat A N (D + 1)) (toVec y N)) := by
  unfold linRegFit
  simp only [hA, hy, hhead]
  rw [if_neg hN, if_neg (by simp), hA]

lemma writeVecLast_ok (a : ℕ) (q : ℚ) (h : Heap) (hne : (readVec a h).length ≠ 0) :
    writeVecLast a q h =
      .ok (writeVec a ((readVec a h).set ((readVec a h).length - 1) q) h) := by
  unfold writeVecLast
  exact if_neg hne

/-! Folding lemmas relating the raw pipeline terms to their value-level
names. -/

lemma yVal_fold (D N : ℕ) (r : ℕ → ℕ → ℚ) (z : ℕ → ℚ) (β : List ℚ) (ε : ℚ) :
    List.zipWith (fun p q => p + q)
      ((transposeL (designL D N r)).map fun row => dotList row β)
      (smulL ε (randnL N z)) = yVal D N r z β ε := rfl

lemma coefVal_fold (D N : ℕ) (r : ℕ → ℕ → ℚ) (z : ℕ → ℚ) (β : List ℚ) (ε : ℚ) :
    List.ofFn (fitCoef N D (toMat (transposeL (designL D N r)) N (D + 1))
      (toVec (yVal D N r z β ε) N)) = coefVal D N r z β ε := rfl

lemma iceptVal_fold (D N : ℕ) (r : ℕ → ℕ → ℚ) (z : ℕ → ℚ) (β : List ℚ) (ε : ℚ) :
    fitIntercept N D (toMat (transposeL (designL D N r)) N (D + 1))
      (toVec (yVal D N r z β ε) N) = iceptVal D N r z β ε := rfl

lemma bhVal_fold (D N : ℕ) (r : ℕ → ℕ → ℚ) (z : ℕ → ℚ) (β : List ℚ) (ε : ℚ) :
    (coefVal D N r z β ε).set D (iceptVal D N r z β ε) = bhVal D N r z β ε := rfl

lemma resVal_fold (D N : ℕ) (r : ℕ → ℕ → ℚ) (z : ℕ → ℚ) (β : List ℚ) (ε : ℚ) :
    List.zipWith (fun p q => p - q) (yVal D N r z β ε)
      ((transposeL (designL D N r)).map fun row => dotList row (bhVal D N r z β ε)) =
      resVal D N r z β ε := rfl

/-- A successful run of the cell: with at least one sample and a true
coefficient list of length D+1, every dimension check passes and the final
store and addresses are exactly `finalTrace`. -/
lemma runPipeline_eq (N D : ℕ) (ε : ℚ) (r : ℕ → ℕ → ℚ) (z : ℕ → ℚ) (β : List ℚ)
    (hN : 1 ≤ N) (hβ : β.length = D + 1) :
    runPipeline N D ε r z β = .ok (finalTrace D N r z β ε) := by
  have hN0 : N ≠ 0 := by omega
  have hrowβ : ∀ row ∈ transposeL (designL D N r), row.length = β.length :=
    fun row hrow => by rw [XtL_row_length D N r row hrow, hβ]
  have haddlen : ((transposeL (designL D N r)).map fun row => dotList row β).length =
      (smulL ε (randnL N z)).length := by
    have h1 := XtL_length D N r
    simp only [XtL] at h1
    simp [h1, smulL, randnL]
  have hfitA : (transposeL (designL D N r)).length = N := by
    have h1 := XtL_length D N r
    simpa [XtL] using h1
  have hfithead : ((transposeL (designL D N r)).headD []).length = D + 1 := by
    have h1 := XtL_headD_length D N r hN
    simpa [XtL] using h1
  have hrowbh : ∀ row ∈ transposeL (designL D N r),
      row.length = (bhVal D N r z β ε).length :=
    fun row hrow => by rw [XtL_row_length D N r row hrow, bhVal_length]
  have hsublen : (yVal D N r z β ε).length =
      ((transposeL (designL D N r)).map fun row =>
        dotList row (bhVal D N r z β ε)).length := by
    have h1 := XtL_length D N r
    simp only [XtL] at h1
    simp [yVal_length, h1]
  unfold runPipeline
  simp only [allocMat, allocVec, writeMat, writeVec, readMat, readVec,
    List.length_nil, List.nil_append, List.getD_cons_zero, List.getD_cons_succ,
    List.set_cons_zero, List.set_cons_succ, List.cons_append, List.length_cons,
    List.length_ofFn, Nat.add_sub_cancel]
  rw [sliceAssign_design D N r]
  simp only [Except.bind, List.set_cons_zero]
  rw [matVecL_ok _ _ hrowβ]
  simp only [Except.bind]
  rw [addVL_ok _ _ haddlen, yVal_fold]
  simp only [Except.bind, allocVec, writeVec, readVec, List.getD_cons_zero,
    List.getD_cons_succ, List.cons_append, List.nil_append, List.length_cons,
    List.length_nil]
  rw [linRegFit_eq _ _ N D hfitA hN0 (yVal_length D N r z β ε) hfithead,
    coefVal_fold, iceptVal_fold]
  simp only [Except.bind, allocVec, writeVec, readVec, List.getD_cons_zero,
    List.getD_cons_succ, List.cons_append, List.nil_append, List.length_cons,
    List.length_nil]
  rw [writeVecLast_ok]
  · simp only [Except.bind, allocVec, writeVec, writeMat, readVec, readMat,
      List.getD_cons_zero, List.getD_cons_succ, List.cons_append, List.nil_append,
      List.length_cons, List.length_nil, List.set_cons_zero, List.set_cons_succ,
      coefVal_length, Nat.add_sub_cancel, bhVal_fold]
    rw [matVecL_ok _ _ hrowbh]
    simp only [Except.bind]
    rw [subVL_ok _ _ hsublen, resVal_fold]
    simp only [Except.bind, allocVec, List.cons_append, List.nil_append,
      List.length_cons, List.length_nil]
    rfl
  · simp only [readVec, List.getD_cons_zero, List.getD_cons_succ, coefVal_length]
    omega

/-! Degenerate-fit helpers: when the centred feature block is zero (one
sample, or constant features) the least-squares step returns the zero
vector — matching scipy's minimum-norm solution — and the intercept is the
response mean. -/

lemma uCoef_of_Fc_zero (N D : ℕ) (A : Matrix (Fin N) (Fin (D + 1)) ℚ)
    (y : Fin N → ℚ) (h : Fc N D A = 0) : uCoef N D A y = 0 := by
  unfold uCoef lstsqCoef
  rw [h]
  simp

lemma fitCoef_of_Fc_zero (N D : ℕ) (A : Matrix (Fin N) (Fin (D + 1)) ℚ)
    (y : Fin N → ℚ) (h : Fc N D A = 0) : fitCoef N D A y = 0 := by
  unfold fitCoef
  rw [uCoef_of_Fc_zero N D A y h]
  funext i
  refine Fin.lastCases ?_ ?_ i
  · simp
  · intro j
    simp

lemma fitIntercept_of_Fc_zero (N D : ℕ) (A : Matrix (Fin N) (Fin (D + 1)) ℚ)
    (y : Fin N → ℚ) (h : Fc N D A = 0) : fitIntercept N D A y = meanV N y := by
  unfold fitIntercept
  rw [fitCoef_of_Fc_zero N D A y h]
  simp

lemma Fc_one (D : ℕ) (A : Matrix (Fin 1) (Fin (D + 1)) ℚ) : Fc 1 D A = 0 := by
  ext n d
  have hn : n = 0 := Subsingleton.elim n 0
  subst hn
  simp [Fc, centerCols, colMean, featBlock, Fin.sum_univ_one]

lemma meanV_one (y : Fin 1 → ℚ) : meanV 1 y = y 0 := by
  simp [meanV, Fin.sum_univ_one]

lemma gram_det_one_sample (A : Matrix (Fin 1) (Fin (1 + 1)) ℚ) :
    (Aᵀ * A).det = 0 := by
  rw [Matrix.det_fin_two (Aᵀ * A)]
  simp only [Matrix.mul_apply, Matrix.transpose_apply, Fin.sum_univ_one]
  ring

lemma ofFn_zero_two : List.ofFn (0 : Fin (1 + 1) → ℚ) = [0, 0] := by
  simp [List.ofFn_succ]

lemma bhVal_n1d1 (ε : ℚ) (r : ℕ → ℕ → ℚ) (z : ℕ → ℚ) (b0 b1 : ℚ) :
    bhVal 1 1 r z [b0, b1] ε = [0, (yVal 1 1 r z [b0, b1] ε).getD 0 0] := by
  have hFc : Fc 1 1 (toMat (XtL 1 1 r) 1 (1 + 1)) = 0 := Fc_one 1 _
  have hco : coefVal 1 1 r z [b0, b1] ε = [0, 0] := by
    unfold coefVal
    rw [fitCoef_of_Fc_zero _ _ _ _ hFc, ofFn_zero_two]
  have hic : iceptVal 1 1 r z [b0, b1] ε = (yVal 1 1 r z [b0, b1] ε).getD 0 0 := by
    unfold iceptVal
    rw [fitIntercept_of_Fc_zero _ _ _ _ hFc, meanV_one]
    rfl
  unfold bhVal
  rw [hco, hic]
  rfl


lemma designL_rHalf : designL 1 2 rHalf = [[1 / 2, 1 / 2], [1, 1]] := by
  norm_num [designL, randL, rHalf, List.range_succ, List.replicate_succ]

lemma XtL_rHalf : XtL 1 2 rHalf = [[1 / 2, 1], [1 / 2, 1]] := by
  rw [XtL, designL_rHalf]
  norm_num [transposeL, List.range_succ]

lemma Fc_rHalf_zero : Fc 2 1 (toMat (XtL 1 2 rHalf) 2 (1 + 1)) = 0 := by
  rw [XtL_rHalf]
  ext n d
  fin_cases d
  fin_cases n <;>
    norm_num [Fc, centerCols, colMean, featBlock, toMat, Fin.sum_univ_two]

lemma yVal_rHalf : yVal 1 2 rHalf zZero [2, 1] 0 = [2, 2] := by
  unfold yVal
  rw [XtL_rHalf]
  norm_num [dotList, smulL, randnL, zZero, List.range_succ]

lemma coefVal_rHalf : coefVal 1 2 rHalf zZero [2, 1] 0 = [0, 0] := by
  unfold coefVal
  rw [fitCoef_of_Fc_zero _ _ _ _ Fc_rHalf_zero, ofFn_zero_two]

lemma iceptVal_rHalf : iceptVal 1 2 rHalf zZero [2, 1] 0 = 2 := by
  unfold iceptVal
  rw [fitIntercept_of_Fc_zero _ _ _ _ Fc_rHalf_zero]
  norm_num [meanV, Fin.sum_univ_two, toVec, yVal_rHalf]

lemma bhVal_rHalf : bhVal 1 2 rHalf zZero [2, 1] 0 = [0, 2] := by
  unfold bhVal
  rw [coefVal_rHalf, iceptVal_rHalf]
  rfl

/-! Entry-level facts about the created design matrix. -/

lemma designL_last_row (D N : ℕ) (r : ℕ → ℕ → ℚ) :
    (designL D N r).getD D [] = List.replicate N 1 := by
  unfold designL
  rw [List.getD_append_right _ _ _ _ (by rw [randL_length])]
  rw [randL_length]
  simp

lemma designL_entry (D N : ℕ) (r : ℕ → ℕ → ℚ) (i j : ℕ) (hi : i < D) (hj : j < N) :
    ((designL D N r).getD i []).getD j 0 = r i j := by
  have h1 : (designL D N r).getD i [] = (List.range N).map (r i) := by
    unfold designL
    rw [List.getD_append _ _ _ _ (by rw [randL_length]; exact hi)]
    unfold randL
    rw [List.getD_eq_getElem _ _ (by simp [hi])]
    simp
  rw [h1, List.getD_eq_getElem _ _ (by simp [hj])]
  simp

/-- C3 counterexample: in the N = 1, D = 1 scenario the matrix `XᵀX` is
singular, yet the fitter raises no error — the run completes normally
instead of failing with a SingularDesignMatrix error. -/
theorem singular_fit_no_error :
    ((toMat (XtL 1 1 rHalf) 1 (1 + 1))ᵀ * toMat (XtL 1 1 rHalf) 1 (1 + 1)).det = 0 ∧
      (runPipeline 1 1 (1 / 2) rHalf zZero [2, 1]).isOk = true :=
  ⟨gram_det_one_sample _, by decide⟩

/-- C3 (amended): on a singular design the fitter does not raise; it
silently returns the minimum-norm result.  In the N = 1, D = 1 scenario
`XᵀX` is singular, the run succeeds, and the estimated vector is
[0, y₀]: feature coefficient 0 and intercept equal to the single response
value. -/
theorem singular_fit_returns_silently (ε : ℚ) (r : ℕ → ℕ → ℚ) (z : ℕ → ℚ)
    (b0 b1 : ℚ) :
    ((toMat (XtL 1 1 r) 1 (1 + 1))ᵀ * toMat (XtL 1 1 r) 1 (1 + 1)).det = 0 ∧
      ∃ t, runPipeline 1 1 ε r z [b0, b1] = .ok t ∧
        readVec t.coefA t.heap = [0, (readVec t.yA t.heap).getD 0 0] ∧
        readVec t.bhA t.heap = [0, (readVec t.yA t.heap).getD 0 0] := by
  refine ⟨gram_det_one_sample _, finalTrace 1 1 r z [b0, b1] ε,
    runPipeline_eq 1 1 ε r z [b0, b1] (by omega) rfl, ?_, ?_⟩ <;>
    simpa [finalTrace, readVec] using bhVal_n1d1 ε r z b0 b1

/-- C4 counterexample: N = 0 violates the spec's bound N ≥ 1 and ε = −1
violates ε ≥ 0, yet the generator raises no error at all — there is no
InvalidParameter validation in the code. -/
theorem generator_accepts_invalid_parameters :
    ¬ (1 ≤ (0 : ℤ)) ∧ (-1 : ℚ) < 0 ∧
      (generate 0 1 (-1) [2, 1] rHalf zZero).isOk = true :=
  ⟨by decide, by norm_num, by decide⟩

/-- C4 (amended): the generator performs no input validation and no
InvalidParameter error exists.  With a coefficient list of length D+1 it
succeeds exactly when N ≥ 0 and D ≥ 0: the only failures are the
underlying numpy `ValueError`s on negative array dimensions, and in
particular N = 0 or a negative noise scale raise no error. -/
theorem generator_no_validation (N D : ℤ) (ε : ℚ) (β : List ℚ) (r : ℕ → ℕ → ℚ)
    (z : ℕ → ℚ) (hβ : β.length = (D + 1).toNat) :
    (generate N D ε β r z).isOk = true ↔ 0 ≤ N ∧ 0 ≤ D := by
  by_cases hD : 0 ≤ D
  · by_cases hN : 0 ≤ N
    · have h1 : (D + 1).toNat = D.toNat + 1 := by omega
      have hβ' : β.length = D.toNat + 1 := by rw [hβ, h1]
      have hrowβ : ∀ row ∈ transposeL (designL D.toNat N.toNat r),
          row.length = β.length := fun row hrow => by
        rw [XtL_row_length D.toNat N.toNat r row hrow, hβ']
      have haddlen : ((transposeL (designL D.toNat N.toNat r)).map
          fun row => dotList row β).length =
            (smulL ε (randnL N.toNat z)).length := by
        have h2 := XtL_length D.toNat N.toNat r
        simp only [XtL] at h2
        simp [h2, smulL, randnL]
      unfold generate npOnesZ npRandZ npRandnZ
      rw [if_neg (by omega)]
      simp only [Except.bind]
      rw [if_neg (by omega)]
      simp only [Except.bind]
      rw [h1, sliceAssign_design D.toNat N.toNat r]
      simp only [Except.bind]
      rw [if_neg (by omega)]
      simp only [Except.bind]
      rw [matVecL_ok _ _ hrowβ]
      simp only [Except.bind]
      rw [addVL_ok _ _ haddlen]
      simp only [Except.bind]
      simp [Except.isOk, Except.toBool, hN, hD]
    · unfold generate npOnesZ
      rw [if_pos (Or.inr (by omega))]
      simp only [Except.bind]
      simp [Except.isOk, Except.toBool]
      omega
  · by_cases hD1 : D + 1 < 0
    · unfold generate npOnesZ
      rw [if_pos (Or.inl hD1)]
      simp only [Except.bind]
      simp [Except.isOk, Except.toBool]
      omega
    · by_cases hN : N < 0
      · unfold generate npOnesZ
        rw [if_pos (Or.inr hN)]
        simp only [Except.bind]
        simp [Except.isOk, Except.toBool]
        omega
      · unfold generate npOnesZ npRandZ
        rw [if_neg (by omega)]
        simp only [Except.bind]
        rw [if_pos (Or.inl (by omega))]
        simp only [Except.bind]
        simp [Except.isOk, Except.toBool]
        omega

/-- Witness for the amended C4 at the notebook's own parameters
N = 100, D = 1, ε = 1/2. -/
theorem generator_no_validation_witness :
    ([2, 1] : List ℚ).length = ((1 : ℤ) + 1).toNat ∧
      ((generate 100 1 (1 / 2) [2, 1] rHalf zZero).isOk = true ↔
        0 ≤ (100 : ℤ) ∧ 0 ≤ (1 : ℤ)) :=
  ⟨by decide, generator_no_validation 100 1 (1 / 2) [2, 1] rHalf zZero (by decide)⟩

/-- C5: for every valid run, the design matrix has D+1 rows of N columns,
its last row (row D) is constant 1, every entry of rows 0..D−1 lies in
[0,1) when the uniform oracle does, and the array bound to `X` at the end
of the run still holds exactly the contents created on lines 113-114: it
is not mutated after creation. -/
theorem design_matrix_invariants (N D : ℕ) (ε : ℚ) (r : ℕ → ℕ → ℚ) (z : ℕ → ℚ)
    (β : List ℚ) (hN : 1 ≤ N) (hβ : β.length = D + 1)
    (hr : ∀ i j, 0 ≤ r i j ∧ r i j < 1) :
    ∃ t, runPipeline N D ε r z β = .ok t ∧
      readMat t.xA t.heap = designL D N r ∧
      (designL D N r).length = D + 1 ∧
      (∀ row ∈ designL D N r, row.length = N) ∧
      (designL D N r).getD D [] = List.replicate N 1 ∧
      (∀ i < D, ∀ j < N,
        0 ≤ ((designL D N r).getD i []).getD j 0 ∧
          ((designL D N r).getD i []).getD j 0 < 1) := by
  refine ⟨finalTrace D N r z β ε, runPipeline_eq N D ε r z β hN hβ, ?_,
    designL_length D N r, designL_row_length D N r, designL_last_row D N r, ?_⟩
  · simp [finalTrace, readMat]
  · intro i hi j hj
    rw [designL_entry D N r i j hi hj]
    exact hr i j

/-- Witness for C5 at N = 2, D = 1, with all uniform draws 1/2. -/
theorem design_matrix_invariants_witness :
    (1 ≤ 2 ∧ ([2, 1] : List ℚ).length = 1 + 1 ∧
        (∀ i j, 0 ≤ rHalf i j ∧ rHalf i j < 1)) ∧
      ∃ t, runPipeline 2 1 (1 / 2) rHalf zZero [2, 1] = .ok t ∧
        readMat t.xA t.heap = designL 1 2 rHalf ∧
        (designL 1 2 rHalf).length = 1 + 1 ∧
        (∀ row ∈ designL 1 2 rHalf, row.length = 2) ∧
        (designL 1 2 rHalf).getD 1 [] = List.replicate 2 1 ∧
        (∀ i < 1, ∀ j < 2,
          0 ≤ ((designL 1 2 rHalf).getD i []).getD j 0 ∧
            ((designL 1 2 rHalf).getD i []).getD j 0 < 1) :=
  ⟨⟨by omega, rfl, fun i j => by norm_num [rHalf]⟩,
    design_matrix_invariants 2 1 (1 / 2) rHalf zZero [2, 1] (by omega) rfl
      (fun i j => by norm_num [rHalf])⟩

/-- C8 counterexample: the fitting stage is not a pure, side-effect-free
function: on a concrete run the fitted model's coefficient array observed
after the pipeline ([0, 2]) differs from the array the solver assigned
([0, 0]) — line 120 mutated it through the `beta_hat` alias. -/
theorem fitter_state_mutated :
    Except.map (fun t => readVec t.coefA t.heap)
        (runPipeline 2 1 0 rHalf zZero [2, 1]) = .ok [0, 2] ∧
      Except.map (fun t => t.fitCoefV) (runPipeline 2 1 0 rHalf zZero [2, 1]) =
        .ok [0, 0] ∧
      ([0, 2] : List ℚ) ≠ [0, 0] := by
  have hrun := runPipeline_eq 2 1 0 rHalf zZero [2, 1] (by omega) rfl
  refine ⟨?_, ?_, by norm_num⟩
  · rw [hrun]
    simp only [Except.map, finalTrace, readVec, List.getD_cons_zero,
      List.getD_cons_succ]
    rw [bhVal_rHalf]
  · rw [hrun]
    simp only [Except.map, finalTrace]
    rw [coefVal_rHalf]

/-- C8 (amended): the fit leaves the previously created data unchanged —
at the end of the run the arrays bound to `X` and `y` still hold exactly
the values the generation stage created — but the fitting stage is not
free of side effects on the fitted model's own state: line 120 mutates
`reg.coef_`'s array in place. -/
theorem fit_preserves_design_and_response (N D : ℕ) (ε : ℚ) (r : ℕ → ℕ → ℚ)
    (z : ℕ → ℚ) (β : List ℚ) (hN : 1 ≤ N) (hβ : β.length = D + 1) :
    ∃ t, runPipeline N D ε r z β = .ok t ∧
      readMat t.xA t.heap = designL D N r ∧
      readVec t.yA t.heap = yVal D N r z β ε := by
  refine ⟨finalTrace D N r z β ε, runPipeline_eq N D ε r z β hN hβ, ?_, ?_⟩
  · simp [finalTrace, readMat]
  · simp [finalTrace, readVec]

/-- Witness for the amended C8 at N = 2, D = 1. -/
theorem fit_preserves_design_and_response_witness :
    (1 ≤ 2 ∧ ([2, 1] : List ℚ).length = 1 + 1) ∧
      ∃ t, runPipeline 2 1 0 rIdx zZero [2, 1] = .ok t ∧
        readMat t.xA t.heap = designL 1 2 rIdx ∧
        readVec t.yA t.heap = yVal 1 2 rIdx zZero [2, 1] 0 :=
  ⟨⟨by omega, rfl⟩,
    fit_preserves_design_and_response 2 1 0 rIdx zZero [2, 1] (by omega) rfl⟩

/-- C9: with N ≥ 1 samples and a true coefficient list of length D+1, the
pipeline runs to completion — no dimension-mismatch failure is reachable
between the generate, fit and diagnose stages — and all shapes are
mutually consistent: `X` is (D+1) × N, `y` has length N, `beta_hat` has
length D+1, and `residuals` has length N. -/
theorem pipeline_shapes_consistent (N D : ℕ) (ε : ℚ) (r : ℕ → ℕ → ℚ) (z : ℕ → ℚ)
    (β : List ℚ) (hN : 1 ≤ N) (hβ : β.length = D + 1) :
    ∃ t, runPipeline N D ε r z β = .ok t ∧
      (readMat t.xA t.heap).length = D + 1 ∧
      (∀ row ∈ readMat t.xA t.heap, row.length = N) ∧
      (readVec t.yA t.heap).length = N ∧
      (readVec t.bhA t.heap).length = D + 1 ∧
      (readVec t.resA t.heap).length = N := by
  refine ⟨finalTrace D N r z β ε, runPipeline_eq N D ε r z β hN hβ, ?_, ?_, ?_, ?_, ?_⟩
  · simp [finalTrace, readMat, designL_length]
  · simp only [finalTrace, readMat, List.getD_cons_zero]
    exact designL_row_length D N r
  · simp [finalTrace, readVec, yVal_length]
  · simp [finalTrace, readVec, bhVal_length]
  · simp [finalTrace, readVec, resVal_length]

/-- Witness for C9 at N = 1, D = 0. -/
theorem pipeline_shapes_consistent_witness :
    (1 ≤ 1 ∧ ([1] : List ℚ).length = 0 + 1) ∧
      ∃ t, runPipeline 1 0 (1 / 2) rHalf zZero [1] = .ok t ∧
        (readMat t.xA t.heap).length = 0 + 1 ∧
        (∀ row ∈ readMat t.xA t.heap, row.length = 1) ∧
        (readVec t.yA t.heap).length = 1 ∧
        (readVec t.bhA t.heap).length = 0 + 1 ∧
        (readVec t.resA t.heap).length = 1 :=
  ⟨⟨by omega, rfl⟩,
    pipeline_shapes_consistent 1 0 (1 / 2) rHalf zZero [1] (by omega) rfl⟩

/-- C10: the estimated coefficient vector is the fit's coefficient array
with its last element overwritten by the separately fitted intercept, and
the overwrite is an in-place mutation through the alias
`beta_hat = reg.coef_`: after the run the fitted model's coefficient array
holds the intercept in its last slot, although the solver assigned 0 there
(the minimum-norm coefficient of the constant column); the final
`beta_hat` is a copy of that mutated array living at a different
address. -/
theorem intercept_overwrite_mutates_coef (N D : ℕ) (ε : ℚ) (r : ℕ → ℕ → ℚ)
    (z : ℕ → ℚ) (β : List ℚ) (hN : 1 ≤ N) (hβ : β.length = D + 1) :
    ∃ t, runPipeline N D ε r z β = .ok t ∧
      readVec t.coefA t.heap = t.fitCoefV.set D t.fitIceptV ∧
      (readVec t.coefA t.heap).getD D 0 = t.fitIceptV ∧
      t.fitCoefV.getD D 0 = 0 ∧
      readVec t.bhA t.heap = readVec t.coefA t.heap ∧
      t.bhA ≠ t.coefA := by
  refine ⟨finalTrace D N r z β ε, runPipeline_eq N D ε r z β hN hβ, ?_, ?_, ?_, ?_, ?_⟩
  · simp only [finalTrace, readVec, List.getD_cons_zero, List.getD_cons_succ]
    rfl
  · simp only [finalTrace, readVec, List.getD_cons_zero, List.getD_cons_succ]
    unfold bhVal
    have hlt : D < ((coefVal D N r z β ε).set D (iceptVal D N r z β ε)).length := by
      rw [List.length_set, coefVal_length]
      omega
    rw [List.getD_eq_getElem _ _ hlt, List.getElem_set_self]
  · simp only [finalTrace]
    have hlt : D < (coefVal D N r z β ε).length := by
      rw [coefVal_length]
      omega
    rw [List.getD_eq_getElem _ _ hlt]
    unfold coefVal
    rw [List.getElem_ofFn]
    show fitCoef N D _ _ ⟨D, _⟩ = 0
    have hlast : (⟨D, by omega⟩ : Fin (D + 1)) = Fin.last D := rfl
    rw [hlast]
    unfold fitCoef
    exact Fin.snoc_last _ _
  · simp only [finalTrace, readVec, List.getD_cons_zero, List.getD_cons_succ]
  · simp [finalTrace]

/-- Witness for C10 at N = 2, D = 1. -/
theorem intercept_overwrite_mutates_coef_witness :
    (1 ≤ 2 ∧ ([2, 1] : List ℚ).length = 1 + 1) ∧
      ∃ t, runPipeline 2 1 0 rHalf zZero [2, 1] = .ok t ∧
        readVec t.coefA t.heap = t.fitCoefV.set 1 t.fitIceptV ∧
        (readVec t.coefA t.heap).getD 1 0 = t.fitIceptV ∧
        t.fitCoefV.getD 1 0 = 0 ∧
        readVec t.bhA t.heap = readVec t.coefA t.heap ∧
        t.bhA ≠ t.coefA :=
  ⟨⟨by omega, rfl⟩,
    intercept_overwrite_mutates_coef 2 1 0 rHalf zZero [2, 1] (by omega) rfl⟩

end LinReg
